import Mathlib

/-!
Verification of the event-hub aggregator (`createEventHub` from
`packages/event-bus/src/eventHub.ts`).

Payloads are modelled as natural numbers. Listener callbacks are modelled
syntactically: a listener body is either the hub's internal forwarding
closure `payload => global.emit({name, details: payload})`, or user code
given as a small list of actions (record the payload, emit on some channel,
register a listener, unsubscribe a listener, or throw). Exceptions are
modelled by an error result that aborts the remaining dispatch, as in
synchronous JavaScript. State observable to the outside (per-listener logs
and an invocation trace) lives in the `Hub` record.

The channel implementation (`createEventBus` in `eventBus.ts`) is not part
of the sources; the channel contract is modelled from the spec, see
`emitCore` below.
-/

namespace EventHub

/-- One step of user listener code:
record the received payload, emit a payload on a named channel,
register a fresh recording listener on a named channel, unsubscribe the
listener with a given id on a named channel, or throw an exception. -/
inductive Action where
  | record : Action
  | emitOn : String → Nat → Action
  | onA : String → Action
  | unsub : String → Nat → Action
  | throwA : Action
deriving DecidableEq

/-- A channel listener body: either the hub's internal forwarding closure
`payload => global.emit({name, details: payload})` (tagged with the channel
name it closes over), or user code as a list of actions. -/
inductive LBody where
  | forward : String → LBody
  | user : List Action → LBody
deriving DecidableEq

/-- A registered channel listener: an identity (standing for the function's
object identity, used by its unsubscribe handle) together with its body. -/
structure CEntry where
  id : Nat
  body : LBody
deriving DecidableEq

/-- A channel (the `EventHubChannel` contract): its currently registered
listeners in registration order, a counter supplying fresh listener
identities, and the optional `value` accessor. The accessor is modelled as
a function of an external mutable world (a natural number), so that
"the channel's current externally-tracked value" can change between reads. -/
structure Channel where
  listeners : List CEntry
  nextId : Nat
  value : Option (Nat → Nat)

/-- `createEventBus()` as used for fresh channels: no listeners, no value. -/
def mkBus : Channel :=
  { listeners := [], nextId := 0, value := none }

/-- The whole observable state of a constructed hub:
`buses` is the captured name → channel mapping, `glisteners` the ids of
listeners registered through `hub.listen` (on the internal global channel),
`store` the name → getter pairs installed by `Object.defineProperty`,
`glog g` the sequence of tagged events received by global listener `g`,
`clog ch i` the payloads received by channel listener `i` on channel `ch`,
and `trace` the chronological record of channel-listener invocations. -/
structure Hub where
  buses : List (String × Channel)
  glisteners : List Nat
  gNext : Nat
  store : List (String × (Nat → Nat))
  glog : Nat → List (String × Nat)
  clog : String → Nat → List Nat
  trace : List (String × Nat)

/-- Property lookup in an association list (JavaScript `buses[name]`). -/
def lookupBus (bs : List (String × Channel)) (k : String) : Option Channel :=
  (bs.find? (fun p => p.1 = k)).map (fun p => p.2)

/-- Update the channel stored under key `k`. -/
def updateBus (bs : List (String × Channel)) (k : String) (f : Channel → Channel) :
    List (String × Channel) :=
  bs.map (fun p => if p.1 = k then (p.1, f p.2) else p)

/-- The internal global channel's `emit`: every currently registered global
listener receives the tagged event exactly once (its log is extended). -/
def globalEmit (h : Hub) (name : String) (p : Nat) : Hub :=
  { h with glog := fun g => if g ∈ h.glisteners then h.glog g ++ [(name, p)] else h.glog g }

/-- Record payload `p` in the log of channel listener `i` on channel `ch`. -/
def appendClog (h : Hub) (ch : String) (i p : Nat) : Hub :=
  { h with clog := fun c j => if c = ch ∧ j = i then h.clog c j ++ [p] else h.clog c j }

/-- Unsubscribe on the channel record: remove the listener with identity
`uid`. Removing an absent listener is a no-op, so unsubscribe handles are
idempotent, as the channel contract requires. -/
def dropEntry (uid : Nat) (c : Channel) : Channel :=
  { c with listeners := c.listeners.filter (fun e => e.id ≠ uid) }

/-- `channel.listen(b)` on the channel record: append a listener with a
fresh identity. -/
def pushEntry (b : LBody) (c : Channel) : Channel :=
  { c with listeners := c.listeners ++ [⟨c.nextId, b⟩], nextId := c.nextId + 1 }

def removeL (h : Hub) (ch : String) (uid : Nat) : Hub :=
  { h with buses := updateBus h.buses ch (dropEntry uid) }

/-- `channel.listen` for a fresh recording listener registered on `ch`
(used by the `Action.onA` step). -/
def addRecorder (h : Hub) (ch : String) : Hub :=
  { h with buses := updateBus h.buses ch (pushEntry (.user [.record])) }

/-- The body currently registered under identity `i` on channel `ch`,
or `none` when that listener has been unsubscribed. -/
def currentBody (h : Hub) (ch : String) (i : Nat) : Option LBody :=
  (lookupBus h.buses ch).bind (fun c => ((c.listeners.find? (fun e => e.id = i)).map CEntry.body))

/-- Result of a dispatch: `listenerThrew` models an exception thrown by a
listener propagating out of `emit`; `missingChannel` models the TypeError
raised by `buses[name].emit(...)` when `name` is not a key of the mapping;
`fuelOut` only signals interpreter fuel exhaustion (never reached in the
theorems below). -/
inductive Exc where
  | listenerThrew : Exc
  | missingChannel : String → Exc
  | fuelOut : Exc
deriving DecidableEq

/-- Run the actions of one user listener body. `emitN` is the dispatch used
for nested `emit` calls made by the listener; an exception from a nested
emission aborts the remaining actions and propagates. -/
def runActs (emitN : String → Nat → Hub → Hub × Option Exc) (ch : String) (p i : Nat) :
    List Action → Hub → Hub × Option Exc
  | [], h => (h, none)
  | .record :: rest, h => runActs emitN ch p i rest (appendClog h ch i p)
  | .emitOn c2 p2 :: rest, h =>
      match emitN c2 p2 h with
      | (h2, none) => runActs emitN ch p i rest h2
      | (h2, some e) => (h2, some e)
  | .onA c2 :: rest, h => runActs emitN ch p i rest (addRecorder h c2)
  | .unsub c2 uid :: rest, h => runActs emitN ch p i rest (removeL h c2 uid)
  | .throwA :: _, h => (h, some .listenerThrew)

/-- Invoke one listener body with payload `p`. The forwarding body
immediately emits the tagged event on the internal global channel and
cannot throw; a user body runs its actions. -/
def runBody (emitN : String → Nat → Hub → Hub × Option Exc) (ch : String) (p i : Nat)
    (b : LBody) (h : Hub) : Hub × Option Exc :=
  match b with
  | .forward name => (globalEmit h name p, none)
  | .user acts => runActs emitN ch p i acts h

/-- Walk the snapshot of listener identities taken when `emit` started.
Modelled from the spec: `emit` invokes all currently-registered callbacks
in registration order, and a listener unsubscribed before its turn — even
by an earlier listener of the same emission — is skipped, never invoked
(spec §3 invariants, §4.1). Each actual invocation is recorded in `trace`.
An exception aborts the remaining snapshot and propagates. -/
def runEntries (emitN : String → Nat → Hub → Hub × Option Exc) (ch : String) (p : Nat) :
    List Nat → Hub → Hub × Option Exc
  | [], h => (h, none)
  | i :: rest, h =>
      match currentBody h ch i with
      | none => runEntries emitN ch p rest h
      | some b =>
          match runBody emitN ch p i b { h with trace := h.trace ++ [(ch, i)] } with
          | (h2, none) => runEntries emitN ch p rest h2
          | (h2, some e) => (h2, some e)

/-- `buses[ch].emit(p)`: look the channel up in the captured mapping (a
missing name fails immediately, like the JavaScript TypeError), snapshot
the registered listeners, and dispatch. The fuel bounds only the nesting
depth of re-entrant emissions. -/
def emitCore : Nat → String → Nat → Hub → Hub × Option Exc
  | 0, _, _, h => (h, some .fuelOut)
  | n + 1, ch, p, h =>
      match lookupBus h.buses ch with
      | none => (h, some (.missingChannel ch))
      | some c => runEntries (emitCore n) ch p (c.listeners.map CEntry.id) h

/-- `hub.emit(name, payload)` delegates to `buses[name].emit(payload)`. -/
def hubEmit (fuel : Nat) (h : Hub) (k : String) (p : Nat) : Hub × Option Exc :=
  emitCore fuel k p h

/-- `hub.on(name, listener)` delegates to `buses[name].listen(listener)`:
the listener is appended to the channel's registry with a fresh identity
and the unsubscribe handle `(name, identity)` is returned. A missing name
fails (`none`), modelling the TypeError from `buses[name].listen`. -/
def hubOn (h : Hub) (k : String) (b : LBody) : Option (Hub × (String × Nat)) :=
  match lookupBus h.buses k with
  | none => none
  | some c =>
      some ({ h with buses := updateBus h.buses k (pushEntry b) }, (k, c.nextId))

/-- `hub.listen(listener)`: register a recording listener on the internal
global channel; returns its identity. -/
def hubListen (h : Hub) : Hub × Nat :=
  ({ h with glisteners := h.glisteners ++ [h.gNext], gNext := h.gNext + 1 }, h.gNext)

/-- The construction argument: either the channel mapping itself, or a
factory receiving the channel constructor (`createEventBus`). -/
inductive DefineChannels where
  | direct : List (String × Channel) → DefineChannels
  | factory : ((Unit → Channel) → List (String × Channel)) → DefineChannels

/-- `typeof defineChannels === "function" ? defineChannels(createEventBus)
: defineChannels`. -/
def resolveChannels : DefineChannels → List (String × Channel)
  | .direct m => m
  | .factory f => f (fun _ => mkBus)

/-- The per-channel construction step: `bus.listen(payload =>
global.emit({name, details: payload}))` appends the forwarding listener to
the channel's registry. -/
def installChannel (name : String) (c : Channel) : Channel :=
  { c with listeners := c.listeners ++ [⟨c.nextId, .forward name⟩], nextId := c.nextId + 1 }

/-- `createEventHub`: resolve the mapping, install a read-through store
getter for every channel that has a `value` accessor, register the
forwarding listener on every channel (in mapping iteration order), and
return the hub. -/
def createEventHub (d : DefineChannels) : Hub :=
  let m := resolveChannels d
  { buses := m.map (fun p => (p.1, installChannel p.1 p.2))
    glisteners := []
    gNext := 0
    store := m.filterMap (fun p => p.2.value.map (fun f => (p.1, f)))
    glog := fun _ => []
    clog := fun _ _ => []
    trace := [] }

/-- Reading `hub.store[k]` when the external world is `w`: the installed
getter, if any, re-invokes the channel's `value` accessor at read time. -/
def storeGet (h : Hub) (k : String) (w : Nat) : Option Nat :=
  ((h.store.find? (fun p => p.1 = k)).map (fun p => p.2 w))

/-- The property keys present on `hub.store` (the `"k" in store` test). -/
def storeKeys (h : Hub) : List String :=
  h.store.map Prod.fst

/-- A property of the returned hub object
`{...buses, store, on, emit, listen}`: either one of the original channels
spread by name, or one of the hub's own four members (which, coming later
in the object literal, override a spread channel of the same name). -/
inductive HubProp where
  | channel : Channel → HubProp
  | storeP : HubProp
  | onP : HubProp
  | emitP : HubProp
  | listenP : HubProp

/-- The hub members that shadow a spread channel of the same name. -/
def reservedNames : List String :=
  ["store", "on", "emit", "listen"]

/-- Property lookup on the returned hub object: the explicit members
`store`, `on`, `emit`, `listen` come after the spread in the object
literal and win; any other key resolves to the spread channel, if any. -/
def hubProps (h : Hub) (k : String) : Option HubProp :=
  if k = "store" then some .storeP
  else if k = "on" then some .onP
  else if k = "emit" then some .emitP
  else if k = "listen" then some .listenP
  else (lookupBus h.buses k).map .channel

/-- An external top-level operation on the hub. -/
inductive Op where
  | onOp : String → LBody → Op
  | unsubOp : String → Nat → Op
  | emitOp : String → Nat → Op
  | listenOp : Op

/-- Apply one external operation (an `emit` whose listener throws leaves
the state reached when the exception escaped; the caller may catch it and
continue). -/
def applyOp (n : Nat) (h : Hub) : Op → Hub
  | .onOp k b =>
      match hubOn h k b with
      | some (h2, _) => h2
      | none => h
  | .unsubOp k i => removeL h k i
  | .emitOp k p => (emitCore n k p h).1
  | .listenOp => (hubListen h).1

/-- Run a sequence of external operations. -/
def runOps (n : Nat) : List Op → Hub → Hub
  | [], h => h
  | o :: rest, h => runOps n rest (applyOp n h o)

/-- A listener body that only observes: it records its payload, or it is a
forwarding closure. Such a body never mutates any registry and never
throws. -/
def SimpleBody (b : LBody) : Prop :=
  b = .user [.record] ∨ ∃ nm, b = .forward nm

/-- The tagged events a run over the entries `es` pushes into the global
channel: one event `(nm, p)` per forwarding body `forward nm`. -/
def fwdEvents (es : List CEntry) (p : Nat) : List (String × Nat) :=
  es.filterMap (fun e => match e.body with | .forward nm => some (nm, p) | _ => none)

/-- The identities of the recording listeners among `es`. -/
def recIds (es : List CEntry) : List Nat :=
  (es.filter (fun e => e.body = .user [.record])).map CEntry.id

/-- The cumulative effect of invoking the simple-bodied entries `es` with
payload `p` on channel `ch`: their invocations are traced, every global
listener receives the forwarded events, and every recorder records `p`. -/
def simpleStep (es : List CEntry) (ch : String) (p : Nat) (h : Hub) : Hub :=
  { h with
    trace := h.trace ++ es.map (fun e => (ch, e.id))
    glog := fun g => if g ∈ h.glisteners then h.glog g ++ fwdEvents es p else h.glog g
    clog := fun c2 j => if c2 = ch ∧ j ∈ recIds es then h.clog c2 j ++ [p] else h.clog c2 j }

/-- The listener identity `d` is dead on channel `k`: it is no longer in
the registry (its unsubscribe handle has run) and it is below the
fresh-identity counter, so no later registration can reuse it. This is
exactly the state of a handle produced by `hub.on`/`channel.listen` after
it has been invoked. -/
def Dead (h : Hub) (k : String) (d : Nat) : Prop :=
  ∀ pc ∈ h.buses, pc.1 = k → (∀ e ∈ pc.2.listeners, e.id ≠ d) ∧ d < pc.2.nextId

/-! Concrete scenario hubs used by witnesses and counterexamples. -/

/-- A channel with a `value` accessor reading the external world. -/
def chWithValue : Channel :=
  { listeners := [], nextId := 0, value := some (fun w => w + 1) }

/-- Hub over one plain channel `"a"`, with one global listener (identity 0)
and one recording listener on `"a"` (identity 1, after the forwarding
listener's identity 0). -/
def hubW1 : Hub :=
  ((hubOn ((hubListen (createEventHub (.direct [("a", mkBus)]))).1) "a"
      (.user [.record])).map Prod.fst).getD (createEventHub (.direct []))

/-- `hubW1` after the unsubscribe handle of listener 1 on `"a"` has run. -/
def hubW6 : Hub :=
  removeL hubW1 "a" 1

/-- Hub over channels `"a"`, `"b"`, with one global listener (identity 0)
and a listener on `"a"` (identity 1) that emits `pb` on `"b"` from inside
its own callback and then records its payload. -/
def hubC7 (pb : Nat) : Hub :=
  ((hubOn ((hubListen (createEventHub (.direct [("a", mkBus), ("b", mkBus)]))).1) "a"
      (.user [.emitOn "b" pb, .record])).map Prod.fst).getD (createEventHub (.direct []))

/-- Hub over one channel `"a"` with a throwing listener (identity 1) and a
recording listener (identity 2) registered after it. -/
def hubW9 : Hub :=
  ((hubOn (((hubOn (createEventHub (.direct [("a", mkBus)])) "a"
      (.user [.throwA])).map Prod.fst).getD (createEventHub (.direct []))) "a"
      (.user [.record])).map Prod.fst).getD (createEventHub (.direct []))

/-! Basic lemmas about the state transformers. -/

theorem hubExt {a b : Hub} (h1 : a.buses = b.buses) (h2 : a.glisteners = b.glisteners)
    (h3 : a.gNext = b.gNext) (h4 : a.store = b.store) (h5 : a.glog = b.glog)
    (h6 : a.clog = b.clog) (h7 : a.trace = b.trace) : a = b := by
  cases a
  cases b
  simp_all

@[simp] theorem globalEmit_buses (h : Hub) (nm : String) (p : Nat) :
    (globalEmit h nm p).buses = h.buses := rfl

@[simp] theorem globalEmit_glisteners (h : Hub) (nm : String) (p : Nat) :
    (globalEmit h nm p).glisteners = h.glisteners := rfl

@[simp] theorem globalEmit_trace (h : Hub) (nm : String) (p : Nat) :
    (globalEmit h nm p).trace = h.trace := rfl

@[simp] theorem globalEmit_clog (h : Hub) (nm : String) (p : Nat) :
    (globalEmit h nm p).clog = h.clog := rfl

@[simp] theorem globalEmit_store (h : Hub) (nm : String) (p : Nat) :
    (globalEmit h nm p).store = h.store := rfl

@[simp] theorem globalEmit_gNext (h : Hub) (nm : String) (p : Nat) :
    (globalEmit h nm p).gNext = h.gNext := rfl

theorem globalEmit_glog (h : Hub) (nm : String) (p : Nat) :
    (globalEmit h nm p).glog =
      fun g => if g ∈ h.glisteners then h.glog g ++ [(nm, p)] else h.glog g := rfl

@[simp] theorem appendClog_buses (h : Hub) (ch : String) (i p : Nat) :
    (appendClog h ch i p).buses = h.buses := rfl

@[simp] theorem appendClog_glisteners (h : Hub) (ch : String) (i p : Nat) :
    (appendClog h ch i p).glisteners = h.glisteners := rfl

@[simp] theorem appendClog_trace (h : Hub) (ch : String) (i p : Nat) :
    (appendClog h ch i p).trace = h.trace := rfl

@[simp] theorem appendClog_glog (h : Hub) (ch : String) (i p : Nat) :
    (appendClog h ch i p).glog = h.glog := rfl

@[simp] theorem appendClog_store (h : Hub) (ch : String) (i p : Nat) :
    (appendClog h ch i p).store = h.store := rfl

@[simp] theorem appendClog_gNext (h : Hub) (ch : String) (i p : Nat) :
    (appendClog h ch i p).gNext = h.gNext := rfl

theorem appendClog_clog (h : Hub) (ch : String) (i p : Nat) :
    (appendClog h ch i p).clog =
      fun c j => if c = ch ∧ j = i then h.clog c j ++ [p] else h.clog c j := rfl

@[simp] theorem removeL_glisteners (h : Hub) (ch : String) (u : Nat) :
    (removeL h ch u).glisteners = h.glisteners := rfl

@[simp] theorem removeL_trace (h : Hub) (ch : String) (u : Nat) :
    (removeL h ch u).trace = h.trace := rfl

@[simp] theorem removeL_glog (h : Hub) (ch : String) (u : Nat) :
    (removeL h ch u).glog = h.glog := rfl

@[simp] theorem removeL_clog (h : Hub) (ch : String) (u : Nat) :
    (removeL h ch u).clog = h.clog := rfl

theorem removeL_buses (h : Hub) (ch : String) (u : Nat) :
    (removeL h ch u).buses = updateBus h.buses ch (dropEntry u) := rfl

@[simp] theorem addRecorder_glisteners (h : Hub) (ch : String) :
    (addRecorder h ch).glisteners = h.glisteners := rfl

@[simp] theorem addRecorder_trace (h : Hub) (ch : String) :
    (addRecorder h ch).trace = h.trace := rfl

@[simp] theorem addRecorder_glog (h : Hub) (ch : String) :
    (addRecorder h ch).glog = h.glog := rfl

@[simp] theorem addRecorder_clog (h : Hub) (ch : String) :
    (addRecorder h ch).clog = h.clog := rfl

theorem addRecorder_buses (h : Hub) (ch : String) :
    (addRecorder h ch).buses = updateBus h.buses ch (pushEntry (.user [.record])) := rfl

/-! Lemmas about `find?` over listener registries and association lists. -/

theorem find_entry_of_nodup (l : List CEntry) (e : CEntry)
    (hnd : (l.map CEntry.id).Nodup) (he : e ∈ l) :
    l.find? (fun x => x.id = e.id) = some e := by
  induction l with
  | nil => cases he
  | cons x rest ih =>
      rcases List.mem_cons.mp he with rfl | hmem
      · simp [List.find?]
      · have hx : x.id ≠ e.id := by
          intro hcontra
          have : e.id ∈ rest.map CEntry.id := List.mem_map.mpr ⟨e, hmem, rfl⟩
          have := (List.nodup_cons.mp hnd).1
          exact this (hcontra ▸ List.mem_map.mpr ⟨e, hmem, rfl⟩)
        have hnd2 := (List.nodup_cons.mp hnd).2
        have hdec : (decide (x.id = e.id)) = false := by simp [hx]
        simp only [List.find?, hdec, ih hnd2 hmem]

theorem find_entry_eq_none (l : List CEntry) (d : Nat) (hall : ∀ e ∈ l, e.id ≠ d) :
    l.find? (fun x => x.id = d) = none := by
  rw [List.find?_eq_none]
  intro e he
  simp [hall e he]

theorem currentBody_of_mem (h : Hub) (ch : String) (c : Channel) (e : CEntry)
    (hc : lookupBus h.buses ch = some c) (hnd : (c.listeners.map CEntry.id).Nodup)
    (he : e ∈ c.listeners) :
    currentBody h ch e.id = some e.body := by
  simp [currentBody, hc, find_entry_of_nodup c.listeners e hnd he]

/-! Runs over simple-bodied listeners. -/

theorem recIds_subset (es : List CEntry) (j : Nat) (hj : j ∈ recIds es) :
    j ∈ es.map CEntry.id := by
  simp only [recIds, List.mem_map] at hj
  obtain ⟨e, he, rfl⟩ := hj
  exact List.mem_map.mpr ⟨e, (List.mem_filter.mp he).1, rfl⟩

theorem simpleStep_nil (ch : String) (p : Nat) (h : Hub) : simpleStep [] ch p h = h := by
  refine hubExt rfl rfl rfl rfl ?_ ?_ (by simp [simpleStep])
  · funext g
    simp [simpleStep, fwdEvents]
  · funext c j
    simp [simpleStep, recIds]

theorem simpleStep_cons_record (e : CEntry) (es : List CEntry) (ch : String) (p : Nat) (h : Hub)
    (hid : e.id ∉ es.map CEntry.id) (hb : e.body = .user [.record]) :
    simpleStep es ch p (appendClog { h with trace := h.trace ++ [(ch, e.id)] } ch e.id p) =
      simpleStep (e :: es) ch p h := by
  refine hubExt rfl rfl rfl rfl ?_ ?_ ?_
  · funext g
    simp [simpleStep, fwdEvents, hb]
  · funext c j
    simp only [simpleStep, appendClog_clog]
    have hrec : recIds (e :: es) = e.id :: recIds es := by
      simp [recIds, List.filter_cons, hb]
    by_cases hch : c = ch
    · subst hch
      by_cases hje : j = e.id
      · subst hje
        have hnin : e.id ∉ recIds es := fun hmem => hid (recIds_subset es e.id hmem)
        simp [hrec, hnin]
      · by_cases hjr : j ∈ recIds es <;> simp [hrec, hje, hjr]
    · simp [hch]
  · simp [simpleStep]

theorem simpleStep_cons_forward (e : CEntry) (es : List CEntry) (ch : String) (p : Nat)
    (h : Hub) (nm : String) (hb : e.body = .forward nm) :
    simpleStep es ch p (globalEmit { h with trace := h.trace ++ [(ch, e.id)] } nm p) =
      simpleStep (e :: es) ch p h := by
  refine hubExt rfl rfl rfl rfl ?_ ?_ ?_
  · funext g
    have hfwd : fwdEvents (e :: es) p = (nm, p) :: fwdEvents es p := by
      simp [fwdEvents, hb]
    by_cases hg : g ∈ h.glisteners <;>
      simp [simpleStep, globalEmit_glog, hfwd, hg]
  · funext c j
    have hrec : recIds (e :: es) = recIds es := by
      simp [recIds, List.filter_cons, hb]
    simp [simpleStep, hrec]
  · simp [simpleStep]

theorem runEntries_simple (emitN : String → Nat → Hub → Hub × Option Exc) (ch : String)
    (p : Nat) (es : List CEntry) :
    ∀ (tail : List Nat) (h : Hub) (c : Channel),
      lookupBus h.buses ch = some c →
      (c.listeners.map CEntry.id).Nodup →
      (∀ e ∈ es, e ∈ c.listeners) →
      (∀ e ∈ es, SimpleBody e.body) →
      (es.map CEntry.id).Nodup →
      runEntries emitN ch p (es.map CEntry.id ++ tail) h =
        runEntries emitN ch p tail (simpleStep es ch p h) := by
  induction es with
  | nil =>
      intro tail h c _ _ _ _ _
      simp [simpleStep_nil]
  | cons e es ih =>
      intro tail h c hc hnd hsub hsb hesnd
      have hcur : currentBody h ch e.id = some e.body :=
        currentBody_of_mem h ch c e hc hnd (hsub e (by simp))
      rw [List.map_cons] at hesnd
      have hid : e.id ∉ es.map CEntry.id := (List.nodup_cons.mp hesnd).1
      have hesnd2 : (es.map CEntry.id).Nodup := (List.nodup_cons.mp hesnd).2
      have hsub2 : ∀ x ∈ es, x ∈ c.listeners := fun x hx => hsub x (List.mem_cons_of_mem e hx)
      have hsb2 : ∀ x ∈ es, SimpleBody x.body := fun x hx => hsb x (List.mem_cons_of_mem e hx)
      rcases hsb e (by simp) with hb | ⟨nm, hb⟩
      · simp only [List.map_cons, List.cons_append, runEntries, hcur, hb, runBody, runActs,
          List.append_eq]
        rw [ih tail _ c (by simpa using hc) hnd hsub2 hsb2 hesnd2,
          simpleStep_cons_record e es ch p h hid hb]
      · simp only [List.map_cons, List.cons_append, runEntries, hcur, hb, runBody,
          List.append_eq]
        rw [ih tail _ c (by simpa using hc) hnd hsub2 hsb2 hesnd2,
          simpleStep_cons_forward e es ch p h nm hb]

theorem emitCore_simple (n : Nat) (h : Hub) (ch : String) (p : Nat) (c : Channel)
    (hc : lookupBus h.buses ch = some c)
    (hnd : (c.listeners.map CEntry.id).Nodup)
    (hsb : ∀ e ∈ c.listeners, SimpleBody e.body) :
    emitCore (n + 1) ch p h = (simpleStep c.listeners ch p h, none) := by
  have key := runEntries_simple (emitCore n) ch p c.listeners [] h c hc hnd
    (fun _ he => he) hsb hnd
  simp only [List.append_nil] at key
  simp [emitCore, hc, key, runEntries]

/-! Lookup on the constructed hub. -/

theorem lookupBus_cons (q : String × Channel) (rest : List (String × Channel)) (k : String) :
    lookupBus (q :: rest) k = if q.1 = k then some q.2 else lookupBus rest k := by
  by_cases hq : q.1 = k <;> simp [lookupBus, List.find?, hq]

theorem lookupBus_eq_none (bs : List (String × Channel)) (k : String)
    (hk : k ∉ bs.map Prod.fst) : lookupBus bs k = none := by
  have hall : ∀ p ∈ bs, ¬((fun p : String × Channel => decide (p.1 = k)) p = true) := by
    intro p hp
    simp only [decide_eq_true_eq]
    intro hpk
    exact hk (List.mem_map.mpr ⟨p, hp, hpk⟩)
  simp [lookupBus, List.find?_eq_none.mpr hall]

theorem lookup_installed (m : List (String × Channel)) (k : String) (c : Channel)
    (hnd : (m.map Prod.fst).Nodup) (hm : (k, c) ∈ m) :
    lookupBus (m.map (fun p => (p.1, installChannel p.1 p.2))) k =
      some (installChannel k c) := by
  induction m with
  | nil => cases hm
  | cons q rest ih =>
      rw [List.map_cons] at hnd
      have hq1 := (List.nodup_cons.mp hnd).1
      have hnd2 := (List.nodup_cons.mp hnd).2
      rcases List.mem_cons.mp hm with heq | hmem
      · subst heq
        simp [List.map_cons, lookupBus_cons]
      · have hq : q.1 ≠ k := fun hqq => hq1 (hqq ▸ List.mem_map.mpr ⟨(k, c), hmem, rfl⟩)
        rw [List.map_cons, lookupBus_cons, if_neg hq]
        exact ih hnd2 hmem

/-! The store built at construction. -/

theorem store_entry_key_mem (m : List (String × Channel))
    (pr : String × (Nat → Nat))
    (hpr : pr ∈ m.filterMap (fun p => p.2.value.map (fun f => (p.1, f)))) :
    pr.1 ∈ m.map Prod.fst := by
  simp only [List.mem_filterMap] at hpr
  obtain ⟨p, hp, hmap⟩ := hpr
  obtain ⟨f, _, hfr⟩ := Option.map_eq_some'.mp hmap
  exact List.mem_map.mpr ⟨p, hp, by rw [← hfr]⟩

theorem store_find (m : List (String × Channel)) (k : String) (c : Channel)
    (hnd : (m.map Prod.fst).Nodup) (hm : (k, c) ∈ m) :
    (m.filterMap (fun p => p.2.value.map (fun f => (p.1, f)))).find?
        (fun pr => pr.1 = k) = c.value.map (fun f => (k, f)) := by
  induction m with
  | nil => cases hm
  | cons q rest ih =>
      rw [List.map_cons] at hnd
      have hq1 := (List.nodup_cons.mp hnd).1
      have hnd2 := (List.nodup_cons.mp hnd).2
      rcases List.mem_cons.mp hm with heq | hmem
      · subst heq
        cases hv : c.value with
        | some f => simp [List.filterMap_cons, hv, List.find?]
        | none =>
            have hall : ∀ pr ∈ rest.filterMap (fun p => p.2.value.map (fun f => (p.1, f))),
                ¬((fun pr : String × (Nat → Nat) => decide (pr.1 = k)) pr = true) := by
              intro pr hpr
              simp only [decide_eq_true_eq]
              intro hprk
              exact hq1 (hprk ▸ store_entry_key_mem rest pr hpr)
            simp only [List.filterMap_cons, hv, Option.map_none']
            exact List.find?_eq_none.mpr hall
      · have hq : q.1 ≠ k := fun hqq => hq1 (hqq ▸ List.mem_map.mpr ⟨(k, c), hmem, rfl⟩)
        cases hv : q.2.value with
        | some f =>
            have hdec : (decide ((q.1, f).1 = k)) = false := by simp [hq]
            simp only [List.filterMap_cons, hv, Option.map_some', List.find?, hdec]
            exact ih hnd2 hmem
        | none =>
            simp only [List.filterMap_cons, hv, Option.map_none']
            exact ih hnd2 hmem

/-! Forwarded events of a simple run. -/

theorem fwdEvents_of_recorders (es : List CEntry) (p : Nat)
    (hrec : ∀ e ∈ es, e.body = .user [.record]) : fwdEvents es p = [] := by
  induction es with
  | nil => rfl
  | cons e es ih =>
      simp only [fwdEvents, List.filterMap_cons, hrec e (by simp)]
      exact ih (fun x hx => hrec x (List.mem_cons_of_mem e hx))

theorem fwdEvents_single (es : List CEntry) (k : String) (p : Nat)
    (hb : ∀ e ∈ es, e.body = .forward k ∨ e.body = .user [.record])
    (hone : (es.map CEntry.body).count (.forward k) = 1) :
    fwdEvents es p = [(k, p)] := by
  induction es with
  | nil => simp at hone
  | cons e es ih =>
      rcases hb e (by simp) with hbe | hbe
      · have hz : (es.map CEntry.body).count (.forward k) = 0 := by
          rw [List.map_cons, List.count_cons] at hone
          simp [hbe] at hone
          omega
        have hrec : ∀ x ∈ es, x.body = .user [.record] := by
          intro x hx
          rcases hb x (List.mem_cons_of_mem e hx) with h1 | h1
          · exfalso
            have : (LBody.forward k) ∈ es.map CEntry.body := List.mem_map.mpr ⟨x, hx, h1⟩
            rw [← List.count_pos_iff] at this
            omega
          · exact h1
        simp only [fwdEvents, List.filterMap_cons, hbe]
        have hnil := fwdEvents_of_recorders es p hrec
        simp only [fwdEvents] at hnil
        simp [hnil]
      · have hone2 : (es.map CEntry.body).count (.forward k) = 1 := by
          rw [List.map_cons, List.count_cons] at hone
          simpa [hbe] using hone
        simp only [fwdEvents, List.filterMap_cons, hbe]
        exact ih (fun x hx => hb x (List.mem_cons_of_mem e hx)) hone2

/-- C1: for every hub state, channel key `k` whose registry holds exactly
one forwarding listener `forward k` (the one construction installs)
besides pure recorders, and every emission of payload `p` on `k`
(`hub.emit` and direct `channel.emit` are the same dispatch), every
listener registered via `hub.listen` receives exactly one new tagged event
`(k, p)` — the exact payload, no loss, no duplication — and the emission
completes normally. -/
theorem hub_listen_exactly_once_per_emit (n : Nat) (h : Hub) (k : String) (p : Nat)
    (c : Channel) (hc : lookupBus h.buses k = some c)
    (hnd : (c.listeners.map CEntry.id).Nodup)
    (hb : ∀ e ∈ c.listeners, e.body = .forward k ∨ e.body = .user [.record])
    (hone : (c.listeners.map CEntry.body).count (.forward k) = 1) :
    (hubEmit (n + 1) h k p).2 = none ∧
      ∀ g ∈ h.glisteners, (hubEmit (n + 1) h k p).1.glog g = h.glog g ++ [(k, p)] := by
  have hsb : ∀ e ∈ c.listeners, SimpleBody e.body := by
    intro e he
    rcases hb e he with h1 | h1
    · exact Or.inr ⟨k, h1⟩
    · exact Or.inl h1
  have hrun := emitCore_simple n h k p c hc hnd hsb
  refine ⟨by simp [hubEmit, hrun], ?_⟩
  intro g hg
  simp [hubEmit, hrun, simpleStep, hg, fwdEvents_single c.listeners k p hb hone]

/-- Witness for C1: on `hubW1` (hub over channel `"a"`, one global
listener `0`, one recorder), emitting `5` on `"a"` succeeds and global
listener `0` receives exactly `[("a", 5)]`. -/
theorem hub_listen_exactly_once_per_emit_witness :
    (hubEmit 3 hubW1 "a" 5).2 = none ∧ (hubEmit 3 hubW1 "a" 5).1.glog 0 = [("a", 5)] := by
  have H := hub_listen_exactly_once_per_emit 2 hubW1 "a" 5
    ⟨[⟨0, .forward "a"⟩, ⟨1, .user [.record]⟩], 2, none⟩ rfl (by decide) (by decide) (by decide)
  refine ⟨H.1, ?_⟩
  rw [H.2 0 (by decide)]
  rfl

/-- C2: for every hub and channel `(k, c)` of the construction mapping
that declares a `value` accessor `f`, reading `store.k` at any later
external world `w` re-invokes the accessor and returns `f w` — the live
current value, not a snapshot: the result tracks every change of `w`. -/
theorem store_read_through_live (d : DefineChannels) (k : String) (c : Channel)
    (f : Nat → Nat) (w : Nat)
    (hnd : ((resolveChannels d).map Prod.fst).Nodup)
    (hm : (k, c) ∈ resolveChannels d) (hv : c.value = some f) :
    storeGet (createEventHub d) k w = some (f w) := by
  have hs := store_find (resolveChannels d) k c hnd hm
  have hstore : (createEventHub d).store =
      (resolveChannels d).filterMap (fun p => p.2.value.map (fun f => (p.1, f))) := rfl
  simp [storeGet, hstore, hs, hv]

/-- Witness for C2: a channel `"a"` whose accessor reads the world as
`w + 1`; `store.a` read at world `41` gives `42`, at world `10` gives
`11` — two reads of the same store property observing the mutated state. -/
theorem store_read_through_live_witness :
    storeGet (createEventHub (.direct [("a", chWithValue), ("b", mkBus)])) "a" 41 = some 42 ∧
    storeGet (createEventHub (.direct [("a", chWithValue), ("b", mkBus)])) "a" 10 = some 11 := by
  have H1 := store_read_through_live (.direct [("a", chWithValue), ("b", mkBus)]) "a"
    chWithValue (fun w => w + 1) 41 (by decide) (List.mem_cons_self _ _) rfl
  have H2 := store_read_through_live (.direct [("a", chWithValue), ("b", mkBus)]) "a"
    chWithValue (fun w => w + 1) 10 (by decide) (List.mem_cons_self _ _) rfl
  exact ⟨H1, H2⟩

theorem mem_storeKeys_iff (h : Hub) (k : String) :
    k ∈ storeKeys h ↔ (h.store.find? (fun pr => pr.1 = k)).isSome := by
  rw [List.find?_isSome]
  constructor
  · intro hk
    obtain ⟨pr, hpr, hfst⟩ := List.mem_map.mp hk
    exact ⟨pr, hpr, by simp [hfst]⟩
  · rintro ⟨pr, hpr, hp⟩
    exact List.mem_map.mpr ⟨pr, hpr, by simpa using hp⟩

/-- C3: for every channel `(k, c)` of the construction mapping, the key
`k` is present on `hub.store` (the `in` test) exactly when `c` declared a
`value` accessor at construction time; otherwise the key is entirely
absent. -/
theorem store_key_iff_value_accessor (d : DefineChannels) (k : String) (c : Channel)
    (hnd : ((resolveChannels d).map Prod.fst).Nodup) (hm : (k, c) ∈ resolveChannels d) :
    (k ∈ storeKeys (createEventHub d) ↔ c.value.isSome = true) := by
  rw [mem_storeKeys_iff]
  have hs := store_find (resolveChannels d) k c hnd hm
  have hstore : (createEventHub d).store =
      (resolveChannels d).filterMap (fun p => p.2.value.map (fun f => (p.1, f))) := rfl
  rw [hstore, hs]
  cases c.value <;> simp

/-- Witness for C3: `"a"` (has an accessor) is a key of the store, `"b"`
(no accessor) is absent. -/
theorem store_key_iff_value_accessor_witness :
    "a" ∈ storeKeys (createEventHub (.direct [("a", chWithValue), ("b", mkBus)])) ∧
    "b" ∉ storeKeys (createEventHub (.direct [("a", chWithValue), ("b", mkBus)])) := by
  have H1 := store_key_iff_value_accessor (.direct [("a", chWithValue), ("b", mkBus)]) "a"
    chWithValue (by decide) (List.mem_cons_self _ _)
  have H2 := store_key_iff_value_accessor (.direct [("a", chWithValue), ("b", mkBus)]) "b"
    mkBus (by decide) (List.mem_cons_of_mem _ (List.mem_cons_self _ _))
  refine ⟨H1.mpr rfl, fun hk => ?_⟩
  exact absurd (H2.mp hk) (by decide)

/-- Counterexample to C4: in the hub built from the mapping
`{on: createEventBus()}` the property `hub.on` is NOT the original
channel — in the object literal `{...buses, store, on, emit, listen}` the
hub's own `on` member comes later and shadows the spread channel. So the
claim "for every channel name k the hub contains the original channel
spread by name" is false at the name `"on"`. -/
theorem spread_channel_shadowed_cex :
    ¬ ∃ c, hubProps (createEventHub (.direct [("on", mkBus)])) "on" = some (.channel c) := by
  rintro ⟨c, hc⟩
  exact HubProp.noConfusion (Option.some.inj hc)

/-- C4 amended: for every channel `(k, c)` of the construction mapping
whose name is not one of the hub's own members (`store`, `on`, `emit`,
`listen`), `hub.k` is that original channel — carrying its full contract:
its registered listeners (now ending with the hub's forwarding listener)
and its unchanged optional `value` accessor. Channels named like a hub
member are shadowed by it. -/
theorem spread_channel_access_amended (d : DefineChannels) (k : String) (c : Channel)
    (hnd : ((resolveChannels d).map Prod.fst).Nodup)
    (hm : (k, c) ∈ resolveChannels d) (hres : k ∉ reservedNames) :
    hubProps (createEventHub d) k = some (.channel (installChannel k c)) ∧
    (installChannel k c).value = c.value ∧
    (installChannel k c).listeners = c.listeners ++ [⟨c.nextId, .forward k⟩] := by
  have hlk : lookupBus (createEventHub d).buses k = some (installChannel k c) :=
    lookup_installed (resolveChannels d) k c hnd hm
  simp only [reservedNames, List.mem_cons, List.not_mem_nil, or_false, not_or] at hres
  obtain ⟨h1, h2, h3, h4⟩ := hres
  refine ⟨?_, rfl, rfl⟩
  simp [hubProps, h1, h2, h3, h4, hlk]

/-- Witness for C4's amended form: `hub.a` is the original `"a"` channel
with the forwarding listener appended. -/
theorem spread_channel_access_amended_witness :
    hubProps (createEventHub (.direct [("a", mkBus)])) "a" =
      some (.channel ⟨[⟨0, .forward "a"⟩], 1, none⟩) := by
  have H := spread_channel_access_amended (.direct [("a", mkBus)]) "a" mkBus (by decide)
    (List.mem_cons_self _ _) (by decide)
  exact H.1

/-- C5: calling `hub.emit`/`hub.on` with a name that is not a key of the
original mapping fails immediately (the model's image of the TypeError
from invoking a method on `buses[name]` = `undefined`): `emit` returns
the `missingChannel` failure with the state untouched (never a silent
no-op, no listener runs, nothing caught or translated), and `on` yields
no subscription handle. -/
theorem undefined_channel_fails_loudly (d : DefineChannels) (k : String) (p : Nat)
    (n : Nat) (b : LBody) (hk : k ∉ (resolveChannels d).map Prod.fst) :
    hubEmit (n + 1) (createEventHub d) k p =
      (createEventHub d, some (.missingChannel k)) ∧
    hubOn (createEventHub d) k b = none := by
  have hkeys : (createEventHub d).buses.map Prod.fst = (resolveChannels d).map Prod.fst := by
    have hb : (createEventHub d).buses =
        (resolveChannels d).map (fun p => (p.1, installChannel p.1 p.2)) := rfl
    rw [hb, List.map_map]
    rfl
  have hlk : lookupBus (createEventHub d).buses k = none := by
    apply lookupBus_eq_none
    rw [hkeys]
    exact hk
  constructor
  · simp [hubEmit, emitCore, hlk]
  · simp [hubOn, hlk]

/-- Witness for C5: on a hub over the single channel `"a"`, dispatching to
the undefined name `"b"` fails loudly for both `emit` and `on`. -/
theorem undefined_channel_fails_loudly_witness :
    hubEmit 3 (createEventHub (.direct [("a", mkBus)])) "b" 1 =
      (createEventHub (.direct [("a", mkBus)]), some (.missingChannel "b")) ∧
    hubOn (createEventHub (.direct [("a", mkBus)])) "b" (.user [.record]) = none :=
  undefined_channel_fails_loudly (.direct [("a", mkBus)]) "b" 1 2 (.user [.record]) (by decide)

/-- Counterexample to C7: hub over `{a, b}` with a global listener and a
listener registered via `hub.on("a", ...)` that emits `7` on `b` from
inside its callback. Emitting `5` on `a`, the global listener receives
`[("a", 5), ("b", 7)]`: the OUTER emission's forwarded event comes first,
because the forwarding listener on `a` was registered at construction,
before the `hub.on` listener. The claim that the nested emission's
forwarded event appears before the outer one is false here. -/
theorem nested_emit_order_cex :
    (hubEmit 5 (hubC7 7) "a" 5).1.glog 0 = [("a", 5), ("b", 7)] ∧
    ¬ (((hubEmit 5 (hubC7 7) "a" 5).1.glog 0).indexOf ("b", 7) <
        ((hubEmit 5 (hubC7 7) "a" 5).1.glog 0).indexOf ("a", 5)) :=
  ⟨by decide, by decide⟩

/-- C7 amended: nested emissions are delivered depth-first — the nested
emission on `b` completes fully (its forwarding into the hub-wide stream
included) before control returns to the outer listener, as the trace
`[(a, fwd), (a, listener), (b, fwd)]` and the listener's own log (its
`record`, placed after the nested emit, still runs) show — but the outer
emission's forwarded event precedes the nested one in each `hub.listen`
log, because the forwarding listener of the outer channel is registered
at construction, before any `hub.on` listener. -/
theorem nested_emit_depth_first_amended (pa pb : Nat) :
    (hubEmit 5 (hubC7 pb) "a" pa).2 = none ∧
    (hubEmit 5 (hubC7 pb) "a" pa).1.trace = [("a", 0), ("a", 1), ("b", 0)] ∧
    (hubEmit 5 (hubC7 pb) "a" pa).1.glog 0 = [("a", pa), ("b", pb)] ∧
    (hubEmit 5 (hubC7 pb) "a" pa).1.clog "a" 1 = [pa] :=
  ⟨rfl, rfl, rfl, rfl⟩

/-- C8: `createEventHub` eagerly, before returning: resolves the mapping
(invoking a factory argument with the channel constructor), and registers
on every channel, in mapping iteration order, exactly one forwarding
listener (appended to the channel's registry with a fresh identity) whose
behavior on every payload is to immediately emit the tagged event on the
internal global channel. -/
theorem construction_registers_forwarding (d : DefineChannels) :
    (createEventHub d).buses =
      (resolveChannels d).map (fun p => (p.1, installChannel p.1 p.2)) ∧
    (∀ k c, installChannel k c =
      { listeners := c.listeners ++ [⟨c.nextId, .forward k⟩], nextId := c.nextId + 1,
        value := c.value }) ∧
    (∀ f, resolveChannels (.factory f) = f (fun _ => mkBus)) ∧
    (∀ emitN ch p i nm h2,
      runBody emitN ch p i (.forward nm) h2 = (globalEmit h2 nm p, none)) :=
  ⟨rfl, fun _ _ => rfl, fun _ => rfl, fun _ _ _ _ _ _ => rfl⟩

/-- C10: `hub.on` and `hub.emit` dispatch through the captured `buses`
mapping, not through the hub object's properties: for every name `k` in
the mapping — including one of the reserved member names, where the hub
property is shadowed and is NOT the channel — `emit` reaches the original
channel (its forwarding listener is invoked, as the trace shows) and `on`
produces a subscription handle. -/
theorem dispatch_via_captured_mapping (d : DefineChannels) (k : String) (c : Channel)
    (p n : Nat) (hnd : ((resolveChannels d).map Prod.fst).Nodup)
    (hm : (k, c) ∈ resolveChannels d) (hfresh : c.listeners = []) :
    (hubEmit (n + 1) (createEventHub d) k p).2 = none ∧
    (hubEmit (n + 1) (createEventHub d) k p).1.trace = [(k, c.nextId)] ∧
    (hubOn (createEventHub d) k (.user [.record])).isSome = true ∧
    (k ∈ reservedNames → ∀ c2, hubProps (createEventHub d) k ≠ some (.channel c2)) := by
  have hlk : lookupBus (createEventHub d).buses k = some (installChannel k c) :=
    lookup_installed (resolveChannels d) k c hnd hm
  have hinst : (installChannel k c).listeners = [⟨c.nextId, .forward k⟩] := by
    simp [installChannel, hfresh]
  have hrun := emitCore_simple n (createEventHub d) k p (installChannel k c) hlk
    (by rw [hinst]; simp)
    (by rw [hinst]; intro e he; simp only [List.mem_singleton] at he; subst he
        exact Or.inr ⟨k, rfl⟩)
  have htr : (createEventHub d).trace = [] := rfl
  refine ⟨by simp [hubEmit, hrun], ?_, by simp [hubOn, hlk], ?_⟩
  · simp [hubEmit, hrun, simpleStep, hinst, htr]
  · intro hres c2
    simp only [reservedNames, List.mem_cons, List.not_mem_nil, or_false] at hres
    rcases hres with rfl | rfl | rfl | rfl <;> simp [hubProps]

/-- Witness for C10: the mapping `{on: createEventBus()}` — emitting on
the name `"on"` reaches the channel (trace `[("on", 0)]`), `hub.on` can
subscribe to it, and yet the hub property `"on"` is the hub's own member,
not the channel. -/
theorem dispatch_via_captured_mapping_witness :
    (hubEmit 3 (createEventHub (.direct [("on", mkBus)])) "on" 4).2 = none ∧
    (hubEmit 3 (createEventHub (.direct [("on", mkBus)])) "on" 4).1.trace = [("on", 0)] ∧
    (hubOn (createEventHub (.direct [("on", mkBus)])) "on" (.user [.record])).isSome = true ∧
    (∀ c2, hubProps (createEventHub (.direct [("on", mkBus)])) "on" ≠
      some (.channel c2)) := by
  have H := dispatch_via_captured_mapping (.direct [("on", mkBus)]) "on" mkBus 4 2
    (by decide) (List.mem_cons_self _ _) rfl
  exact ⟨H.1, H.2.1, H.2.2.1, H.2.2.2 (by decide)⟩

/-- C9: an exception thrown by a listener propagates synchronously out of
`emit` — the hub installs no isolation or translation — and prevents every
listener registered after the throwing one, within the same emit's
iteration, from running: the dispatch result carries the exception, and
the invocation trace ends at the thrower (the entries of `post` never
appear). -/
theorem listener_exception_propagates (n : Nat) (h : Hub) (k : String) (p : Nat)
    (c : Channel) (pre post : List CEntry) (tid : Nat)
    (hc : lookupBus h.buses k = some c)
    (hl : c.listeners = pre ++ ⟨tid, .user [.throwA]⟩ :: post)
    (hpre : ∀ e ∈ pre, SimpleBody e.body)
    (hnd : (c.listeners.map CEntry.id).Nodup) :
    (hubEmit (n + 1) h k p).2 = some .listenerThrew ∧
    (hubEmit (n + 1) h k p).1.trace =
      h.trace ++ pre.map (fun e => (k, e.id)) ++ [(k, tid)] := by
  have hmapid : c.listeners.map CEntry.id =
      pre.map CEntry.id ++ (tid :: post.map CEntry.id) := by
    rw [hl]
    simp
  have hprend : (pre.map CEntry.id).Nodup := by
    rw [hmapid] at hnd
    exact hnd.of_append_left
  have hpresub : ∀ e ∈ pre, e ∈ c.listeners := by
    intro e he
    rw [hl]
    exact List.mem_append_left _ he
  have hkey := runEntries_simple (emitCore n) k p pre (tid :: post.map CEntry.id) h c hc hnd
    hpresub hpre hprend
  have hcur : currentBody (simpleStep pre k p h) k tid = some (.user [.throwA]) := by
    have hmem : (⟨tid, .user [.throwA]⟩ : CEntry) ∈ c.listeners := by
      rw [hl]
      exact List.mem_append_right _ (List.mem_cons_self _ _)
    exact currentBody_of_mem _ k c _ (by simpa using hc) hnd hmem
  constructor
  · simp only [hubEmit, emitCore, hc, hmapid, hkey, runEntries, hcur, runBody, runActs]
  · simp only [hubEmit, emitCore, hc, hmapid, hkey, runEntries, hcur, runBody, runActs]
    simp [simpleStep]

/-- Witness for C9: on `hubW9` (`"a"` has the forwarding listener 0, a
throwing listener 1, and a recorder 2 registered after it), emitting `2`
escapes with the exception and the trace stops at the thrower — listener
2 is never invoked. -/
theorem listener_exception_propagates_witness :
    (hubEmit 3 hubW9 "a" 2).2 = some .listenerThrew ∧
    (hubEmit 3 hubW9 "a" 2).1.trace = [("a", 0), ("a", 1)] := by
  have H := listener_exception_propagates 2 hubW9 "a" 2
    ⟨[⟨0, .forward "a"⟩, ⟨1, .user [.throwA]⟩, ⟨2, .user [.record]⟩], 3, none⟩
    [⟨0, .forward "a"⟩] [⟨2, .user [.record]⟩] 1 rfl rfl
    (by
      intro e he
      simp only [List.mem_singleton] at he
      subst he
      exact Or.inr ⟨"a", rfl⟩)
    (by decide)
  refine ⟨H.1, ?_⟩
  rw [H.2]
  rfl

/-! An unsubscribed listener identity stays dead through every operation. -/

instance (h : Hub) (k : String) (d : Nat) : Decidable (Dead h k d) := by
  unfold Dead
  infer_instance

theorem dead_currentBody (h : Hub) (k : String) (d : Nat) (hd : Dead h k d) :
    currentBody h k d = none := by
  unfold currentBody
  cases hlk : lookupBus h.buses k with
  | none => rfl
  | some c =>
      obtain ⟨pr, hfind⟩ : ∃ pr, h.buses.find? (fun p => p.1 = k) = some pr := by
        unfold lookupBus at hlk
        cases hf : h.buses.find? (fun p => p.1 = k) with
        | none => rw [hf] at hlk; cases hlk
        | some pr => exact ⟨pr, rfl⟩
      have hmem := List.mem_of_find?_eq_some hfind
      have hkey : pr.1 = k := by simpa using List.find?_some hfind
      have hc : pr.2 = c := by
        unfold lookupBus at hlk
        rw [hfind] at hlk
        simpa using hlk
      have hids := (hd pr hmem hkey).1
      rw [hc] at hids
      simp [find_entry_eq_none c.listeners d hids]

theorem dead_updateBus (h : Hub) (k : String) (d : Nat) (ch : String) (f : Channel → Channel)
    (hf : ∀ c, (∀ e ∈ c.listeners, e.id ≠ d) → d < c.nextId →
      (∀ e ∈ (f c).listeners, e.id ≠ d) ∧ d < (f c).nextId)
    (hd : Dead h k d) :
    Dead { h with buses := updateBus h.buses ch f } k d := by
  intro pc hpc hk
  simp only [updateBus, List.mem_map] at hpc
  obtain ⟨q, hq, hqe⟩ := hpc
  by_cases hqc : q.1 = ch
  · rw [if_pos hqc] at hqe
    subst hqe
    have := hd q hq hk
    exact hf q.2 this.1 this.2
  · rw [if_neg hqc] at hqe
    subst hqe
    exact hd q hq hk

theorem dead_removeL (h : Hub) (k : String) (d : Nat) (ch : String) (uid : Nat)
    (hd : Dead h k d) : Dead (removeL h ch uid) k d := by
  refine dead_updateBus h k d ch (dropEntry uid) ?_ hd
  intro c hids hlt
  refine ⟨?_, hlt⟩
  intro e he
  exact hids e (List.mem_of_mem_filter he)

theorem dead_pushEntry (h : Hub) (k : String) (d : Nat) (ch : String) (b : LBody)
    (hd : Dead h k d) :
    Dead { h with buses := updateBus h.buses ch (pushEntry b) } k d := by
  refine dead_updateBus h k d ch (pushEntry b) ?_ hd
  intro c hids hlt
  constructor
  · intro e he
    simp only [pushEntry, List.mem_append, List.mem_singleton] at he
    rcases he with he | rfl
    · exact hids e he
    · simp only [pushEntry]
      omega
  · simp only [pushEntry]
    omega

theorem dead_addRecorder (h : Hub) (k : String) (d : Nat) (ch : String)
    (hd : Dead h k d) : Dead (addRecorder h ch) k d :=
  dead_pushEntry h k d ch (.user [.record]) hd

theorem dead_runActs (k : String) (d : Nat)
    (emitN : String → Nat → Hub → Hub × Option Exc)
    (HE : ∀ c2 p2 h, Dead h k d → Dead (emitN c2 p2 h).1 k d ∧
      (emitN c2 p2 h).1.trace.count (k, d) = h.trace.count (k, d)) :
    ∀ (acts : List Action) (ch : String) (p i : Nat) (h : Hub), Dead h k d →
      Dead (runActs emitN ch p i acts h).1 k d ∧
      (runActs emitN ch p i acts h).1.trace.count (k, d) = h.trace.count (k, d) := by
  intro acts
  induction acts with
  | nil => exact fun ch p i h hd => ⟨hd, rfl⟩
  | cons a rest ih =>
      intro ch p i h hd
      cases a with
      | record => exact ih ch p i (appendClog h ch i p) hd
      | emitOn c2 p2 =>
          obtain ⟨hd2, hc2⟩ := HE c2 p2 h hd
          rcases he : emitN c2 p2 h with ⟨h2, exc⟩
          rw [he] at hd2 hc2
          cases exc with
          | none =>
              simp only [runActs, he]
              obtain ⟨hd3, hc3⟩ := ih ch p i h2 hd2
              exact ⟨hd3, hc3.trans hc2⟩
          | some e =>
              simp only [runActs, he]
              exact ⟨hd2, hc2⟩
      | onA c2 => exact ih ch p i (addRecorder h c2) (dead_addRecorder h k d c2 hd)
      | unsub c2 uid => exact ih ch p i (removeL h c2 uid) (dead_removeL h k d c2 uid hd)
      | throwA => exact ⟨hd, rfl⟩

theorem dead_runBody (k : String) (d : Nat)
    (emitN : String → Nat → Hub → Hub × Option Exc)
    (HE : ∀ c2 p2 h, Dead h k d → Dead (emitN c2 p2 h).1 k d ∧
      (emitN c2 p2 h).1.trace.count (k, d) = h.trace.count (k, d))
    (b : LBody) (ch : String) (p i : Nat) (h : Hub) (hd : Dead h k d) :
    Dead (runBody emitN ch p i b h).1 k d ∧
    (runBody emitN ch p i b h).1.trace.count (k, d) = h.trace.count (k, d) := by
  cases b with
  | forward nm => exact ⟨hd, rfl⟩
  | user acts => exact dead_runActs k d emitN HE acts ch p i h hd

theorem dead_runEntries (k : String) (d : Nat)
    (emitN : String → Nat → Hub → Hub × Option Exc)
    (HE : ∀ c2 p2 h, Dead h k d → Dead (emitN c2 p2 h).1 k d ∧
      (emitN c2 p2 h).1.trace.count (k, d) = h.trace.count (k, d)) :
    ∀ (snap : List Nat) (ch : String) (p : Nat) (h : Hub), Dead h k d →
      Dead (runEntries emitN ch p snap h).1 k d ∧
      (runEntries emitN ch p snap h).1.trace.count (k, d) = h.trace.count (k, d) := by
  intro snap
  induction snap with
  | nil => exact fun ch p h hd => ⟨hd, rfl⟩
  | cons i rest ih =>
      intro ch p h hd
      cases hcb : currentBody h ch i with
      | none =>
          simp only [runEntries, hcb]
          exact ih ch p h hd
      | some b =>
          have hne : ((k, d) : String × Nat) ≠ (ch, i) := by
            rintro heq
            have hk : k = ch := congrArg Prod.fst heq
            have hi : d = i := congrArg Prod.snd heq
            rw [← hk, ← hi] at hcb
            rw [dead_currentBody h k d hd] at hcb
            cases hcb
          have hct : (h.trace ++ [(ch, i)]).count ((k, d) : String × Nat) =
              h.trace.count (k, d) := by
            rw [List.count_append]
            simp [List.count_cons, hne]
          have hd1 : Dead { h with trace := h.trace ++ [(ch, i)] } k d := hd
          obtain ⟨hd2, hc2⟩ := dead_runBody k d emitN HE b ch p i
            { h with trace := h.trace ++ [(ch, i)] } hd1
          rcases hrb : runBody emitN ch p i b { h with trace := h.trace ++ [(ch, i)] }
            with ⟨h2, exc⟩
          rw [hrb] at hd2 hc2
          cases exc with
          | none =>
              simp only [runEntries, hcb, hrb]
              obtain ⟨hd3, hc3⟩ := ih ch p h2 hd2
              exact ⟨hd3, hc3.trans (hc2.trans hct)⟩
          | some e =>
              simp only [runEntries, hcb, hrb]
              exact ⟨hd2, hc2.trans hct⟩

theorem dead_emitCore (k : String) (d : Nat) :
    ∀ (n : Nat) (ch : String) (p : Nat) (h : Hub), Dead h k d →
      Dead (emitCore n ch p h).1 k d ∧
      (emitCore n ch p h).1.trace.count (k, d) = h.trace.count (k, d) := by
  intro n
  induction n with
  | zero => exact fun ch p h hd => ⟨hd, rfl⟩
  | succ n ih =>
      intro ch p h hd
      cases hlk : lookupBus h.buses ch with
      | none =>
          simp only [emitCore, hlk]
          exact ⟨hd, by simp⟩
      | some c =>
          simp only [emitCore, hlk]
          exact dead_runEntries k d (emitCore n) ih (c.listeners.map CEntry.id) ch p h hd

theorem dead_applyOp (k : String) (d : Nat) (n : Nat) (h : Hub) (o : Op)
    (hd : Dead h k d) :
    Dead (applyOp n h o) k d ∧
    (applyOp n h o).trace.count (k, d) = h.trace.count (k, d) := by
  cases o with
  | onOp ch b =>
      cases hon : hubOn h ch b with
      | none => simp only [applyOp, hon]; exact ⟨hd, by simp⟩
      | some pr =>
          obtain ⟨h2, hdl⟩ := pr
          have : hubOn h ch b = some (⟨h2, hdl⟩) := hon
          unfold hubOn at this
          cases hlk : lookupBus h.buses ch with
          | none => rw [hlk] at this; cases this
          | some c =>
              rw [hlk] at this
              have hh2 : h2 = { h with buses := updateBus h.buses ch (pushEntry b) } := by
                have := (Option.some.inj this)
                have := congrArg Prod.fst this
                exact this.symm
              simp only [applyOp, hon]
              rw [hh2]
              exact ⟨dead_pushEntry h k d ch b hd, rfl⟩
  | unsubOp ch uid =>
      simp only [applyOp]
      exact ⟨dead_removeL h k d ch uid hd, rfl⟩
  | emitOp ch p =>
      simp only [applyOp]
      exact dead_emitCore k d n ch p h hd
  | listenOp =>
      simp only [applyOp]
      exact ⟨hd, rfl⟩

theorem dead_runOps (k : String) (d : Nat) (n : Nat) :
    ∀ (ops : List Op) (h : Hub), Dead h k d →
      Dead (runOps n ops h) k d ∧
      (runOps n ops h).trace.count (k, d) = h.trace.count (k, d) := by
  intro ops
  induction ops with
  | nil => exact fun h hd => ⟨hd, rfl⟩
  | cons o rest ih =>
      intro h hd
      obtain ⟨hd2, hc2⟩ := dead_applyOp k d n h o hd
      obtain ⟨hd3, hc3⟩ := ih (applyOp n h o) hd2
      exact ⟨hd3, hc3.trans hc2⟩

/-- C6: a listener is never invoked after its unsubscribe handle has been
called. From any state in which the handle `(k, d)` has run (its identity
is out of the registry and below the fresh-identity counter, so it can
never be reassigned), the trace acquires no further `(k, d)` invocation:
neither during an emission already in flight — an arbitrary remaining
snapshot `snap`, which may well still contain `d`, is walked without
invoking it — nor under any subsequent sequence of `hub.on`,
unsubscribe, `hub.listen` and `emit` operations. -/
theorem no_invocation_after_unsubscribe (n : Nat) (h : Hub) (k : String) (d : Nat)
    (hd : Dead h k d) :
    (∀ (p : Nat) (snap : List Nat),
      ((runEntries (emitCore n) k p snap h).1.trace).count (k, d) =
        h.trace.count (k, d)) ∧
    (∀ ops : List Op,
      ((runOps n ops h).trace).count (k, d) = h.trace.count (k, d)) := by
  constructor
  · intro p snap
    exact (dead_runEntries k d (emitCore n)
      (fun c2 p2 h2 hd2 => dead_emitCore k d n c2 p2 h2 hd2) snap k p h hd).2
  · intro ops
    exact (dead_runOps k d n ops h hd).2

/-- Witness for C6: on `hubW6` (listener 1 on `"a"` unsubscribed), neither
a subsequent `hub.emit` nor an in-flight iteration whose snapshot still
contains identity 1 ever invokes it. -/
theorem no_invocation_after_unsubscribe_witness :
    ((runOps 3 [Op.emitOp "a" 9] hubW6).trace).count (("a", 1) : String × Nat) = 0 ∧
    ((runEntries (emitCore 3) "a" 9 [0, 1] hubW6).1.trace).count
      (("a", 1) : String × Nat) = 0 := by
  have H := no_invocation_after_unsubscribe 3 hubW6 "a" 1 (by decide)
  have h0 : hubW6.trace.count (("a", 1) : String × Nat) = 0 := rfl
  exact ⟨(H.2 [Op.emitOp "a" 9]).trans h0, (H.1 9 [0, 1]).trans h0⟩

end EventHub
